import Mathlib

/-!
Verification development for the claude-hook-rs repository.

The development shallowly embeds the three core components of the source:

* the command-mapping matcher of src/hooks.rs (word-boundary regex
  matching over literal, regex-escaped patterns, with a compiled-pattern
  cache and replace-all rewriting);
* the PreToolUse event handler of src/hooks.rs;
* the configuration store of src/config.rs (discovery, loading, and the
  backup/copy/validate/commit migration protocol), with the filesystem
  modelled as a map from file names to optional contents and the external
  TOML parser abstracted as a function argument.

Machine strings are modelled as Lean String / List Char.  The subset of
the regex language that the source can ever construct is the shape
backslash-b ++ escaped-literal ++ backslash-b, so a compiled regex is
modelled by the literal character list it matches, and the compiler
accepts exactly that shape.  Word characters follow the specification
(ASCII alphanumeric or underscore), which agrees with the regex engine on
the ASCII commands the configuration language deals in.
-/

/-- Word character as defined by the specification glossary: alphanumeric
or underscore.  Mirrors the regex backslash-b character class on ASCII. -/
def isWordChar (c : Char) : Bool :=
  c.isAlphanum || c == '_'

/-- Word-ness of an optional character; the absent character (string edge)
is a non-word position. -/
def wordOpt : Option Char → Bool
  | none => false
  | some c => isWordChar c

/-- A word boundary sits between two adjacent positions exactly when their
word-ness differs (the semantics of backslash-b). -/
def bdry (a b : Option Char) : Bool :=
  wordOpt a != wordOpt b

/-- Literal prefix test on character lists. -/
def litPre : List Char → List Char → Bool
  | [], _ => true
  | _ :: _, [] => false
  | a :: as, b :: bs => a == b && litPre as bs

/-- The character preceding the end of a list, given the character that
preceded the list itself; used to thread left context through scans. -/
def lastCtx (prev : Option Char) : List Char → Option Char
  | [] => prev
  | c :: rest => lastCtx (some c) rest

/-- Whether the regex backslash-b ++ p ++ backslash-b matches at the
current position of the subject s, where prev is the character just before
that position (none at the start of the string). -/
def matchHere (prev : Option Char) (p s : List Char) : Bool :=
  match p with
  | [] => bdry prev s.head?
  | q :: qs =>
    litPre (q :: qs) s &&
    bdry prev (some q) &&
    bdry ((q :: qs).getLast?) (s.drop (q :: qs).length).head?

/-- Whether the word-bounded literal p matches anywhere at or after the
current position of s, with prev the character before that position. -/
def isMatchFrom (prev : Option Char) (p : List Char) : List Char → Bool
  | [] => matchHere prev p []
  | c :: rest => matchHere prev p (c :: rest) || isMatchFrom (some c) p rest

/-- Regex is_match of the word-bounded literal p on a whole subject. -/
def reIsMatch (p s : List Char) : Bool :=
  isMatchFrom none p s

/-- The meta characters escaped by regex escape in the regex crate. -/
def metaChars : List Char :=
  ['\\', '.', '+', '*', '?', '(', ')', '|', '[', ']',
   Char.ofNat 123, Char.ofNat 125, '^', '$', '#', '&', '-', '~']

/-- Escape of one character, per regex escape: meta characters gain a
preceding backslash, all others pass through. -/
def escapeChar (c : Char) : List Char :=
  if metaChars.contains c then ['\\', c] else [c]

/-- Escape of a character list, per regex escape. -/
def escapeList : List Char → List Char
  | [] => []
  | c :: rest => escapeChar c ++ escapeList rest

/-- Escape of a string, per regex escape. -/
def escapeStr (s : String) : String :=
  ⟨escapeList s.data⟩

/-- The regex text the source builds for a configured pattern:
backslash-b, the escaped pattern, backslash-b. -/
def fmtPattern (p : String) : String :=
  "\\b" ++ escapeStr p ++ "\\b"

/-- Parser for the tail of the modelled regex sublanguage: an escaped
literal body followed by the closing backslash-b.  Returns the literal.
Anything outside the sublanguage the source can construct is rejected,
a conservative model of regex compilation failure. -/
def parseTail : List Char → Option (List Char)
  | [] => none
  | [_] => none
  | a :: b :: rest =>
    if a = '\\' then
      if b = 'b' ∧ rest = [] then some []
      else if metaChars.contains b then (parseTail rest).map (fun l => b :: l)
      else none
    else
      if metaChars.contains a then none
      else (parseTail (b :: rest)).map (fun l => a :: l)

/-- Model of Regex new restricted to the regexes the source constructs:
accepts backslash-b ++ escaped literal ++ backslash-b and returns the
literal the compiled matcher recognises between word boundaries. -/
def compileRegex (s : String) : Option (List Char) :=
  match s.data with
  | a :: b :: rest => if a = '\\' ∧ b = 'b' then parseTail rest else none
  | _ => none

/-- The dollar character, which starts a capture-group reference in a
replacement string. -/
def dollarChar : Char := '$'

/-- Opening brace character. -/
def lbraceChar : Char := Char.ofNat 123

/-- Closing brace character. -/
def rbraceChar : Char := Char.ofNat 125

/-- Characters allowed in an unbraced capture-group name. -/
def capNameChar (c : Char) : Bool :=
  c.isAlphanum || c == '_'

/-- Numeric value of an all-digit name, none otherwise; mirrors parsing a
capture-group name as an index. -/
def natOfDigits (cs : List Char) : Option Nat :=
  match cs with
  | [] => none
  | _ :: _ =>
    if cs.all Char.isDigit then
      some (cs.foldl (fun n c => n * 10 + (c.toNat - 48)) 0)
    else none

/-- Text a capture-group reference denotes for the regexes the source
builds: such regexes have exactly one group, group zero, whose text is the
whole matched literal; every other reference denotes the empty string. -/
def groupText (matched : List Char) (name : List Char) : List Char :=
  match natOfDigits name with
  | some 0 => matched
  | some _ => []
  | none => []

/-- Capture-group expansion of a replacement string, one step per fuel
unit (each step consumes at least one character, so fuel equal to the
length of the text suffices): a doubled dollar is a literal dollar, a
dollar followed by a braced or unbraced group name denotes that group,
and a dollar that starts no reference is literal. -/
def expandF (matched : List Char) : Nat → List Char → List Char
  | _, [] => []
  | 0, r => r
  | fuel + 1, c :: rest =>
    if c = dollarChar then
      match rest with
      | [] => [c]
      | d :: rest2 =>
        if d = dollarChar then
          d :: expandF matched fuel rest2
        else if d = lbraceChar then
          let name := rest2.takeWhile (fun x => x != rbraceChar)
          if name.length < rest2.length ∧ name ≠ [] then
            groupText matched name ++ expandF matched fuel (rest2.drop (name.length + 1))
          else c :: expandF matched fuel (d :: rest2)
        else
          let name := (d :: rest2).takeWhile capNameChar
          if name = [] then c :: expandF matched fuel (d :: rest2)
          else groupText matched name ++ expandF matched fuel ((d :: rest2).drop name.length)
    else c :: expandF matched fuel rest

/-- Capture-group expansion the regex crate applies to a replacement
string, as applied by replace-all. -/
def expand (matched : List Char) (r : List Char) : List Char :=
  expandF matched r.length r

/-- Replace-all scan of the word-bounded literal p over a subject, one
step per fuel unit (each step consumes at least one subject character, so
fuel equal to the subject length suffices), with e the expanded
replacement text: at each position, a match emits e and skips the matched
literal (advancing one position when the match is empty), any other
character is copied verbatim. -/
def replaceFromF (p e : List Char) : Nat → Option Char → List Char → List Char
  | _, prev, [] => if matchHere prev p [] then e else []
  | 0, _, s => s
  | fuel + 1, prev, c :: rest =>
    if matchHere prev p (c :: rest) then
      match p with
      | [] => e ++ c :: replaceFromF p e fuel (some c) rest
      | q :: qs =>
        e ++ replaceFromF p e fuel ((q :: qs).getLast?) ((c :: rest).drop (q :: qs).length)
    else c :: replaceFromF p e fuel (some c) rest

/-- Replace-all scan of the word-bounded literal p over a whole subject
suffix, with e the expanded replacement text. -/
def replaceFrom (p e : List Char) (prev : Option Char) (s : List Char) : List Char :=
  replaceFromF p e s.length prev s

/-- Regex replace-all of the word-bounded literal lit on the subject s,
substituting the capture-expanded replacement r for each match. -/
def reReplaceAll (lit r s : List Char) : List Char :=
  replaceFrom lit (expand lit r) none s

/-- The compiled-regex cache: an association of regex texts to their
compiled matchers, modelling the REGEX_CACHE hash map. -/
abbrev Cache := List (String × List Char)

/-- Gets or creates a cached regex for the given pattern, per
get_cached_regex: a cache hit returns the stored matcher unchanged, a miss
compiles, stores and returns it.  The final component records whether this
request compiled (the branch taken), the observation a compilation-counting
probe would make. -/
def getCachedRegex (cache : Cache) (pattern : String) :
    Except String (List Char × Cache × Bool) :=
  match List.lookup pattern cache with
  | some regex => .ok (regex, cache, false)
  | none =>
    match compileRegex pattern with
    | none => .error ("invalid regex pattern: " ++ pattern)
    | some regex => .ok (regex, (pattern, regex) :: cache, true)

/-- A cache is well formed when every stored matcher is the compilation of
its key; holds for the empty cache and is preserved by every request. -/
def CacheWF (cache : Cache) : Prop :=
  ∀ k m, List.lookup k cache = some m → compileRegex k = some m

/-- Single-quote character as a string, used by the suggestion text. -/
def quoteChar : String := (Char.ofNat 39).toString

/-- The human-readable suggestion the source formats for a matched rule. -/
def mkSuggestion (pattern replacement suggested : String) : String :=
  "Command " ++ quoteChar ++ pattern ++ quoteChar ++ " is mapped to use "
    ++ quoteChar ++ replacement ++ quoteChar ++ " instead. Try: " ++ suggested

/-- The pair check_command_mappings returns for a matched rule, expressed
directly in terms of the rule and the command. -/
def mkCheckResult (pattern replacement command : String) : String × String :=
  let suggested : String := ⟨reReplaceAll pattern.data replacement.data command.data⟩
  (mkSuggestion pattern replacement suggested, suggested)

/-- check_command_mappings: iterate the configured rules in order; for each,
build the word-bounded regex for the escaped pattern through the cache; on
the first rule whose regex matches the command, return the suggestion and
the rewritten command; if no rule matches, return none.  A compilation
failure aborts the whole check. -/
def checkCommandMappings (cache : Cache) (commands : List (String × String))
    (command : String) : Except String (Option (String × String) × Cache) :=
  match commands with
  | [] => .ok (none, cache)
  | (pattern, replacement) :: rest =>
    match getCachedRegex cache (fmtPattern pattern) with
    | .error e => .error e
    | .ok (regex, cache2, _) =>
      if reIsMatch regex command.data then
        let suggested : String := ⟨reReplaceAll regex replacement.data command.data⟩
        .ok (some (mkSuggestion pattern replacement suggested, suggested), cache2)
      else
        checkCommandMappings cache2 rest command

/-- The matcher outcome of a check, with the final cache projected away;
none when the check erred. -/
def checkResult (cache : Cache) (commands : List (String × String))
    (command : String) : Option (Option (String × String)) :=
  (checkCommandMappings cache commands command).toOption.map Prod.fst

/-- Whether a configured rule matches a command under word-bounded literal
matching of its pattern. -/
def ruleMatches (command : String) (pr : String × String) : Bool :=
  reIsMatch pr.1.data command.data

/-- Declarative first-match description of a check: the first rule whose
pattern matches, mapped to its result pair. -/
def matchStep (commands : List (String × String)) (command : String) :
    Option (String × String) :=
  (commands.find? (ruleMatches command)).map (fun pr => mkCheckResult pr.1 pr.2 command)

/-- Whether a literal pattern begins and ends with word characters (in
particular it is nonempty). -/
def wordEdged (p : List Char) : Bool :=
  wordOpt p.head? && wordOpt p.getLast?

/-- Join a list of gap strings with a separator between consecutive gaps. -/
def joinWith (sep : List Char) : List (List Char) → List Char
  | [] => []
  | [g] => g
  | g :: g2 :: gs => g ++ sep ++ joinWith sep (g2 :: gs)

/-- The gap decomposition the replace-all scan induces on a subject: the
pieces between consecutive matches of the word-bounded literal p. -/
def scanGaps (p : List Char) : Option Char → List Char → List (List Char)
  | _, [] => [[]]
  | prev, c :: rest =>
    if h : matchHere prev p (c :: rest) = true ∧ p ≠ [] then
      [] :: scanGaps p p.getLast? ((c :: rest).drop p.length)
    else
      (scanGaps p (some c) rest).modifyHead (fun g => c :: g)
termination_by prev s => s.length
decreasing_by
  · have : 1 ≤ p.length := by
      cases p with
      | nil => exact absurd rfl h.2
      | cons q qs => simp
    simp
    omega
  · simp

/-- Every junction of a gap decomposition is a bounded occurrence: the
character before each separator occurrence (threaded through prev) and the
character after it are both non-word. -/
def gapsOk (p : List Char) : Option Char → List (List Char) → Bool
  | _, [] => true
  | _, [_] => true
  | prev, g :: g2 :: gs =>
    !wordOpt (lastCtx prev g) &&
    !wordOpt (joinWith p (g2 :: gs)).head? &&
    gapsOk p p.getLast? (g2 :: gs)

/-- The configuration, per the missing types module as the specification
documents it: a mapping of command patterns to replacement strings and a
mapping of directory aliases to path templates.  The hash-map storage of
the source has no defined iteration order, so the commands mapping is
modelled as a sequence of pairs whose order stands for one iteration
order; logically identical configurations are permutations of it. -/
structure Config where
  commands : List (String × String)
  semanticDirectories : List (String × String)
deriving DecidableEq

/-- Modelled from the spec: the tool_input field of a hook event, holding
the optional command string (types module absent from the sources). -/
structure ToolInput where
  command : Option String
deriving DecidableEq

/-- Modelled from the spec: the tool_response field of a hook event,
holding the optional exit code (types module absent from the sources). -/
structure ToolResponse where
  exitCode : Option Int
deriving DecidableEq

/-- Modelled from the spec: the inbound hook event document with its
required event name and optional fields (types module absent from the
sources; field shapes are fixed by their uses in src/hooks.rs). -/
structure HookInput where
  hookEventName : String
  toolName : Option String
  toolInput : Option ToolInput
  toolResponse : Option ToolResponse
  prompt : Option String
deriving DecidableEq

/-- Modelled from the spec: the outbound decision document; the
replacement command is serialized only when present (types module absent
from the sources; serde skip behaviour fixed by the serialization test in
src/hooks.rs). -/
structure HookOutput where
  decision : String
  reason : String
  replacementCommand : Option String
deriving DecidableEq

/-- JSON string escaping for the serialized decision document. -/
def escapeJsonChar (c : Char) : List Char :=
  if c = '\\' ∨ c = '"' then ['\\', c] else [c]

/-- JSON escape of a whole string. -/
def escapeJson (s : String) : String :=
  ⟨s.data.foldr (fun c acc => escapeJsonChar c ++ acc) []⟩

/-- Serialization of the outbound decision document: decision and reason
always appear; the replacement_command field appears only when present. -/
def serializeHookOutput (o : HookOutput) : String :=
  "\x7b\"decision\":\"" ++ escapeJson o.decision
    ++ "\",\"reason\":\"" ++ escapeJson o.reason ++ "\""
    ++ (match o.replacementCommand with
        | none => ""
        | some rc => ",\"replacement_command\":\"" ++ escapeJson rc ++ "\"")
    ++ "\x7d"

/-- Observable outcome of one PreToolUse invocation: either the process
printed exactly one serialized decision line and exited immediately, or it
completed normally producing no decision output. -/
inductive HookOutcome
  | exited (line : String)
  | completed
deriving DecidableEq

/-- handle_pre_tool_use: only Bash tool events with a command are
processed; the first matching rule produces one decision document
(replace with the replacement command when replace mode is on, else
block with the suggestion and no replacement field), which is serialized
and the invocation exits immediately; with no match the invocation
completes with no output. -/
def handlePreToolUse (cache : Cache) (config : Config) (hookInput : HookInput)
    (replaceMode : Bool) : Except String (HookOutcome × Cache) :=
  if hookInput.toolName ≠ some "Bash" then .ok (.completed, cache)
  else
    match hookInput.toolInput with
    | none => .ok (.completed, cache)
    | some toolInput =>
      match toolInput.command with
      | none => .ok (.completed, cache)
      | some command =>
        match checkCommandMappings cache config.commands command with
        | .error e => .error e
        | .ok (none, cache2) => .ok (.completed, cache2)
        | .ok (some (suggestion, replacementCmd), cache2) =>
          let output : HookOutput :=
            if replaceMode then
              { decision := "replace",
                reason := "Command mapped: using " ++ quoteChar ++ replacementCmd
                  ++ quoteChar ++ " instead",
                replacementCommand := some replacementCmd }
            else
              { decision := "block", reason := suggestion,
                replacementCommand := none }
          .ok (.exited (serializeHookOutput output), cache2)

/-- The current configuration file name, first in search priority. -/
def currentConfigName : String := ".claude.toml"

/-- The legacy configuration file name, second in search priority. -/
def legacyConfigName : String := ".claude-hook-advisor.toml"

/-- Modelled from the spec: the fixed backup suffix appended to the legacy
name (BACKUP_SUFFIX lives in the missing types module; its value is fixed
by the migration test in src/config.rs). -/
def backupSuffix : String := ".backup"

/-- The backup file name: legacy name plus the fixed suffix. -/
def backupConfigName : String := legacyConfigName ++ backupSuffix

/-- The search order of configuration file names: current first, then
legacy. -/
def configFileNames : List String := [currentConfigName, legacyConfigName]

/-- The filesystem visible to the configuration store: a map from file
names to optional contents.  Copy and remove are modelled as total
updates of this map; environmental input and output failures are outside
the model. -/
def FS : Type := String → Option String

/-- Writing a file: the named entry now holds the content. -/
def fsWrite (fs : FS) (path content : String) : FS :=
  fun n => if n = path then some content else fs n

/-- Removing a file: the named entry is now absent. -/
def fsRemove (fs : FS) (path : String) : FS :=
  fun n => if n = path then none else fs n

/-- Modelled from the spec: the configuration error taxonomy (ConfigError
lives in the missing types module; the spec lists NotFound, ParseFailed,
MigrationFailed and BackupFailed, and read failures surface through the
load path). -/
inductive ConfigError
  | notFound (msg : String)
  | readFailed (msg : String)
  | parseFailed (msg : String)
  | migrationFailed (msg : String)
  | backupFailed (msg : String)
deriving DecidableEq

/-- The message carried by a configuration error. -/
def configErrorMsg : ConfigError → String
  | .notFound m => m
  | .readFailed m => m
  | .parseFailed m => m
  | .migrationFailed m => m
  | .backupFailed m => m

section ConfigStore

variable (parseToml : String → Option Config)

/-- load_config_from_path: read the file, parse it as TOML.  The external
TOML parser is abstracted as the function parseToml. -/
def loadConfigFromPath (fs : FS) (path : String) : Except ConfigError Config :=
  match fs path with
  | none => .error (.readFailed ("Failed to read config file: " ++ path))
  | some content =>
    match parseToml content with
    | none => .error (.parseFailed ("Failed to parse config file: " ++ path))
    | some config => .ok config

/-- find_config_file: the first name in the fixed search order that exists
on disk; NotFound when neither exists. -/
def findConfigFile (fs : FS) : Except ConfigError String :=
  match configFileNames.find? (fun n => (fs n).isSome) with
  | some path => .ok path
  | none =>
    .error (.notFound
      "No configuration file found. Searched for: .claude.toml, .claude-hook-advisor.toml")

/-- The diagnostic emitted when no configuration file exists. -/
def noConfigDiagnostic : String :=
  "No configuration file found. Run with --init-config to create one."

/-- load_config_auto: discover and load; NotFound is recovered into an
empty configuration plus one diagnostic; other errors propagate.  The
second component collects the diagnostics emitted. -/
def loadConfigAuto (fs : FS) : Except ConfigError Config × List String :=
  match findConfigFile fs with
  | .ok configPath => (loadConfigFromPath parseToml fs configPath, [])
  | .error (.notFound _) => (.ok ⟨[], []⟩, [noConfigDiagnostic])
  | .error e => (.error e, [])

/-- needs_migration: the legacy path exactly when the legacy file exists
and the current file does not. -/
def needsMigration (fs : FS) : Option String :=
  if (fs legacyConfigName).isSome ∧ (fs currentConfigName).isNone then
    some legacyConfigName
  else none

/-- migrate_config: verify the legacy file exists and the current one does
not, copy legacy to backup, copy legacy to current, validate the copied
current file, and only then remove the legacy file; a validation failure
removes the fresh current file and fails.  Returns the outcome together
with the final filesystem. -/
def migrateConfig (fs : FS) : Except ConfigError String × FS :=
  match fs legacyConfigName with
  | none => (.error (.migrationFailed "Old configuration file does not exist"), fs)
  | some content =>
    if (fs currentConfigName).isSome then
      (.error (.migrationFailed "New configuration file already exists"), fs)
    else
      let fs1 := fsWrite fs backupConfigName content
      let fs2 := fsWrite fs1 currentConfigName content
      match loadConfigFromPath parseToml fs2 currentConfigName with
      | .error e =>
        (.error (.migrationFailed
            ("New configuration validation failed: " ++ configErrorMsg e)),
         fsRemove fs2 currentConfigName)
      | .ok _ => (.ok currentConfigName, fsRemove fs2 legacyConfigName)

end ConfigStore

/-- A concrete stand-in for the abstract TOML parser, accepting exactly
one content string; used to instantiate theorems on concrete inputs. -/
def demoParse : String → Option Config :=
  fun s => if s = "[commands]" then some ⟨[], []⟩ else none

/-- A concrete filesystem holding only a valid legacy configuration. -/
def demoFsLegacy : FS :=
  fun n => if n = legacyConfigName then some "[commands]" else none

/-- A concrete filesystem holding only an invalid legacy configuration. -/
def demoFsLegacyBad : FS :=
  fun n => if n = legacyConfigName then some "not toml" else none

/-- A concrete filesystem holding both configuration files. -/
def demoFsBoth : FS :=
  fun n =>
    if n = legacyConfigName then some "[commands]"
    else if n = currentConfigName then some "other" else none

/-- A concrete filesystem holding no files. -/
def demoFsEmpty : FS := fun _ => none

/-- A concrete filesystem holding only an invalid current configuration. -/
def demoFsCurrentBad : FS :=
  fun n => if n = currentConfigName then some "not toml" else none

theorem escapeList_append_ne_nil (cs : List Char) : escapeList cs ++ ['\\', 'b'] ≠ [] := by
  simp

theorem parseTail_escape : ∀ cs : List Char, parseTail (escapeList cs ++ ['\\', 'b']) = some cs := by
  intro cs
  induction cs with
  | nil => decide
  | cons c cs ih =>
    by_cases hm : c ∈ metaChars
    · have hcb : c ≠ 'b' := by
        intro h; subst h; revert hm; decide
      have hstep : escapeList (c :: cs) ++ ['\\', 'b']
          = '\\' :: c :: (escapeList cs ++ ['\\', 'b']) := by
        simp [escapeList, escapeChar, hm]
      rw [hstep]
      simp [parseTail, hcb, escapeList_append_ne_nil, hm, ih]
    · have hcbs : c ≠ '\\' := by
        intro h; subst h; exact hm (by decide)
      have hstep : escapeList (c :: cs) ++ ['\\', 'b']
          = c :: (escapeList cs ++ ['\\', 'b']) := by
        simp [escapeList, escapeChar, hm]
      rw [hstep]
      cases hX : escapeList cs ++ ['\\', 'b'] with
      | nil => exact absurd hX (escapeList_append_ne_nil cs)
      | cons b rest =>
        rw [hX] at ih
        simp [parseTail, hcbs, hm, ih]

theorem compileRegex_fmt (p : String) : compileRegex (fmtPattern p) = some p.data := by
  have hdata : (fmtPattern p).data = '\\' :: 'b' :: (escapeList p.data ++ ['\\', 'b']) := by
    simp [fmtPattern, escapeStr, String.data_append]
  simp [compileRegex, hdata, parseTail_escape]

theorem cacheWF_nil : CacheWF [] := by
  intro k m h
  simp [List.lookup] at h

theorem getCachedRegex_wf {cache : Cache} (hwf : CacheWF cache) (pattern : String)
    (lit : List Char) (hc : compileRegex pattern = some lit) :
    ∃ cache2 b, getCachedRegex cache pattern = .ok (lit, cache2, b) ∧ CacheWF cache2 := by
  unfold getCachedRegex
  cases hl : List.lookup pattern cache with
  | some m =>
    have hm := hwf pattern m hl
    rw [hm] at hc
    obtain rfl : m = lit := by injection hc
    exact ⟨cache, false, rfl, hwf⟩
  | none =>
    rw [hc]
    refine ⟨(pattern, lit) :: cache, true, rfl, ?_⟩
    intro k m h
    by_cases hk : (k == pattern) = true
    · have : k = pattern := eq_of_beq hk
      subst this
      simp [List.lookup] at h
      rw [← h, hc]
    · simp [List.lookup, hk] at h
      exact hwf k m h

theorem checkCommandMappings_eq_matchStep (command : String) :
    ∀ (commands : List (String × String)) (cache : Cache), CacheWF cache →
    ∃ cache2, CacheWF cache2 ∧
      checkCommandMappings cache commands command = .ok (matchStep commands command, cache2) := by
  intro commands
  induction commands with
  | nil =>
    intro cache h
    exact ⟨cache, h, rfl⟩
  | cons pr rest ih =>
    intro cache hwf
    obtain ⟨pattern, replacement⟩ := pr
    obtain ⟨cache2, b, hget, hwf2⟩ :=
      getCachedRegex_wf hwf (fmtPattern pattern) pattern.data (compileRegex_fmt pattern)
    by_cases hm : reIsMatch pattern.data command.data = true
    · refine ⟨cache2, hwf2, ?_⟩
      have hfind : List.find? (ruleMatches command) ((pattern, replacement) :: rest)
          = some (pattern, replacement) :=
        List.find?_cons_of_pos _ hm
      simp [checkCommandMappings, hget, hm, matchStep, hfind, mkCheckResult, reReplaceAll]
    · obtain ⟨cache3, hwf3, hrec⟩ := ih cache2 hwf2
      refine ⟨cache3, hwf3, ?_⟩
      have hfind : List.find? (ruleMatches command) ((pattern, replacement) :: rest)
          = List.find? (ruleMatches command) rest := by
        refine List.find?_cons_of_neg _ ?_
        simp [ruleMatches, hm]
      simp [checkCommandMappings, hget, hm, hrec, matchStep, hfind]

theorem checkResult_eq_matchStep {cache : Cache} (hwf : CacheWF cache)
    (commands : List (String × String)) (command : String) :
    checkResult cache commands command = some (matchStep commands command) := by
  obtain ⟨cache2, _, heq⟩ := checkCommandMappings_eq_matchStep command commands cache hwf
  simp [checkResult, heq, Except.toOption]

theorem litPre_self_append : ∀ p t : List Char, litPre p (p ++ t) = true := by
  intro p t
  induction p with
  | nil => simp [litPre]
  | cons a as ih => simp [litPre, ih]

theorem litPre_exists : ∀ {p s : List Char}, litPre p s = true → ∃ t, s = p ++ t := by
  intro p
  induction p with
  | nil => exact fun {s} _ => ⟨s, rfl⟩
  | cons a as ih =>
    intro s h
    cases s with
    | nil => simp [litPre] at h
    | cons b bs =>
      simp only [litPre, Bool.and_eq_true, beq_iff_eq] at h
      obtain ⟨rfl, h2⟩ := h
      obtain ⟨t, rfl⟩ := ih h2
      exact ⟨t, rfl⟩

theorem drop_length_append (p t : List Char) : (p ++ t).drop p.length = t := by
  simp

theorem bdry_left_false {a b : Option Char} (h : bdry a b = true) (hb : wordOpt b = true) :
    wordOpt a = false := by
  cases hx : wordOpt a <;> simp_all [bdry]

theorem bdry_right_false {a b : Option Char} (h : bdry a b = true) (ha : wordOpt a = true) :
    wordOpt b = false := by
  cases hx : wordOpt b <;> simp_all [bdry]

theorem wordEdged_ne_nil {p : List Char} (h : wordEdged p = true) : p ≠ [] := by
  intro hnil
  subst hnil
  simp [wordEdged, wordOpt] at h

theorem matchHere_of_occurrence {p v : List Char} (prev : Option Char)
    (hEdge : wordEdged p = true) (hl : wordOpt prev = false)
    (hr : wordOpt v.head? = false) : matchHere prev p (p ++ v) = true := by
  cases p with
  | nil => simp [wordEdged, wordOpt] at hEdge
  | cons q qs =>
    simp only [wordEdged, Bool.and_eq_true, List.head?_cons] at hEdge
    obtain ⟨hq, hlast⟩ := hEdge
    simp only [matchHere, Bool.and_eq_true]
    refine ⟨⟨litPre_self_append _ _, ?_⟩, ?_⟩
    · cases hx : wordOpt prev <;> simp_all [bdry, wordOpt]
    · have hdrop : List.drop (q :: qs).length (q :: (qs ++ v)) = v := by
        simpa using drop_length_append qs v
      cases hx : wordOpt v.head? <;> simp_all [bdry]

theorem isMatchFrom_of_matchHere {prev : Option Char} {p s : List Char}
    (h : matchHere prev p s = true) : isMatchFrom prev p s = true := by
  cases s with
  | nil => simpa [isMatchFrom] using h
  | cons c rest => simp [isMatchFrom, h]

theorem isMatchFrom_occurrence {p v : List Char} (hEdge : wordEdged p = true)
    (hr : wordOpt v.head? = false) :
    ∀ (u : List Char) (prev : Option Char), wordOpt (lastCtx prev u) = false →
      isMatchFrom prev p (u ++ (p ++ v)) = true := by
  intro u
  induction u with
  | nil =>
    intro prev hl
    exact isMatchFrom_of_matchHere (matchHere_of_occurrence prev hEdge hl hr)
  | cons c u ih =>
    intro prev hl
    have hrec := ih (some c) hl
    have hcons : (c :: u) ++ (p ++ v) = c :: (u ++ (p ++ v)) := rfl
    rw [hcons]
    simp only [isMatchFrom, hrec]
    simp

theorem scanGaps_cons_match {p : List Char} {prev : Option Char} {c : Char}
    {rest : List Char} (h : matchHere prev p (c :: rest) = true ∧ p ≠ []) :
    scanGaps p prev (c :: rest)
      = [] :: scanGaps p p.getLast? ((c :: rest).drop p.length) := by
  rw [scanGaps]
  simp [h.1, h.2]

theorem scanGaps_cons_nomatch {p : List Char} {prev : Option Char} {c : Char}
    {rest : List Char} (h : ¬(matchHere prev p (c :: rest) = true ∧ p ≠ [])) :
    scanGaps p prev (c :: rest)
      = (scanGaps p (some c) rest).modifyHead (fun g => c :: g) := by
  rw [scanGaps]
  simp [h]

theorem scanGaps_ne_nil (p : List Char) (prev0 : Option Char) (s0 : List Char) :
    scanGaps p prev0 s0 ≠ [] := by
  induction prev0, s0 using scanGaps.induct p with
  | case1 prev => simp [scanGaps]
  | case2 prev c rest h ih =>
    rw [scanGaps_cons_match h]
    simp
  | case3 prev c rest h ih =>
    rw [scanGaps_cons_nomatch h]
    cases hg : scanGaps p (some c) rest with
    | nil => exact absurd hg ih
    | cons g gs => simp [List.modifyHead]

theorem joinWith_cons_head (sep : List Char) (c : Char) (g : List Char)
    (gs : List (List Char)) :
    joinWith sep ((c :: g) :: gs) = c :: joinWith sep (g :: gs) := by
  cases gs <;> simp [joinWith]

theorem joinWith_scanGaps (p : List Char) (hp : p ≠ []) :
    ∀ (prev0 : Option Char) (s0 : List Char), joinWith p (scanGaps p prev0 s0) = s0 := by
  intro prev0 s0
  induction prev0, s0 using scanGaps.induct p with
  | case1 prev => simp [scanGaps, joinWith]
  | case2 prev c rest h ih =>
    have hlit : litPre p (c :: rest) = true := by
      obtain ⟨hmh, hpn⟩ := h
      cases p with
      | nil => exact absurd rfl hp
      | cons q qs =>
        simp only [matchHere, Bool.and_eq_true] at hmh
        exact hmh.1.1
    obtain ⟨t, ht⟩ := litPre_exists hlit
    have hdrop : (c :: rest).drop p.length = t := by
      rw [ht]
      exact drop_length_append p t
    rw [scanGaps_cons_match h]
    cases hg : scanGaps p p.getLast? ((c :: rest).drop p.length) with
    | nil => exact absurd hg (scanGaps_ne_nil p _ _)
    | cons g2 gs2 =>
      rw [hg] at ih
      have hjw : joinWith p ([] :: g2 :: gs2) = p ++ joinWith p (g2 :: gs2) := by
        simp [joinWith]
      rw [hjw, ih, hdrop]
      exact ht.symm
  | case3 prev c rest h ih =>
    rw [scanGaps_cons_nomatch h]
    cases hg : scanGaps p (some c) rest with
    | nil => exact absurd hg (scanGaps_ne_nil p _ _)
    | cons g gs =>
      rw [hg] at ih
      simp only [List.modifyHead]
      rw [joinWith_cons_head, ih]

theorem replaceFromF_congr (p e : List Char) :
    ∀ (f1 : Nat) (prev : Option Char) (s : List Char) (f2 : Nat),
      s.length ≤ f1 → s.length ≤ f2 →
      replaceFromF p e f1 prev s = replaceFromF p e f2 prev s := by
  intro f1
  induction f1 with
  | zero =>
    intro prev s f2 h1 h2
    have hs : s = [] := List.length_eq_zero.mp (Nat.le_zero.mp h1)
    subst hs
    cases f2 <;> rfl
  | succ f ih =>
    intro prev s f2 h1 h2
    cases s with
    | nil => cases f2 <;> rfl
    | cons c rest =>
      cases f2 with
      | zero => simp at h2
      | succ f2p =>
        have hr1 : rest.length ≤ f := by simpa using h1
        have hr2 : rest.length ≤ f2p := by simpa using h2
        by_cases hm : matchHere prev p (c :: rest) = true
        · cases p with
          | nil =>
            simp only [replaceFromF]
            rw [if_pos hm, if_pos hm, ih (some c) rest f2p hr1 hr2]
          | cons q qs =>
            have hd1 : ((c :: rest).drop (q :: qs).length).length ≤ f := by
              simp only [List.length_drop, List.length_cons]
              omega
            have hd2 : ((c :: rest).drop (q :: qs).length).length ≤ f2p := by
              simp only [List.length_drop, List.length_cons]
              omega
            simp only [replaceFromF]
            rw [if_pos hm, if_pos hm,
              ih ((q :: qs).getLast?) ((c :: rest).drop (q :: qs).length) f2p hd1 hd2]
        · simp only [replaceFromF]
          rw [if_neg hm, if_neg hm, ih (some c) rest f2p hr1 hr2]

theorem replaceFrom_cons_match {p : List Char} (hp : p ≠ []) (e : List Char)
    {prev : Option Char} {c : Char} {rest : List Char}
    (h : matchHere prev p (c :: rest) = true) :
    replaceFrom p e prev (c :: rest)
      = e ++ replaceFrom p e p.getLast? ((c :: rest).drop p.length) := by
  cases p with
  | nil => exact absurd rfl hp
  | cons q qs =>
    show replaceFromF (q :: qs) e (c :: rest).length prev (c :: rest) = _
    simp only [List.length_cons, replaceFromF]
    rw [if_pos h]
    exact congrArg (fun l => e ++ l)
      (replaceFromF_congr (q :: qs) e rest.length ((q :: qs).getLast?)
        ((c :: rest).drop (q :: qs).length) ((c :: rest).drop (q :: qs).length).length
        (by simp only [List.length_drop, List.length_cons]; omega)
        (Nat.le_refl _))

theorem replaceFrom_cons_nomatch (p e : List Char) {prev : Option Char} {c : Char}
    {rest : List Char} (h : ¬ matchHere prev p (c :: rest) = true) :
    replaceFrom p e prev (c :: rest) = c :: replaceFrom p e (some c) rest := by
  show replaceFromF p e (c :: rest).length prev (c :: rest) = _
  simp only [List.length_cons, replaceFromF]
  rw [if_neg h]
  rfl

theorem replaceFrom_eq_joinWith (p e : List Char) (hp : p ≠ []) :
    ∀ (prev0 : Option Char) (s0 : List Char),
      replaceFrom p e prev0 s0 = joinWith e (scanGaps p prev0 s0) := by
  intro prev0 s0
  induction prev0, s0 using scanGaps.induct p with
  | case1 prev =>
    have hmh : matchHere prev p [] = false := by
      cases p with
      | nil => exact absurd rfl hp
      | cons q qs => simp [matchHere, litPre]
    show (if matchHere prev p [] then e else []) = joinWith e (scanGaps p prev [])
    simp [hmh, scanGaps, joinWith]
  | case2 prev c rest h ih =>
    rw [replaceFrom_cons_match hp e h.1, scanGaps_cons_match h]
    cases hg : scanGaps p p.getLast? ((c :: rest).drop p.length) with
    | nil => exact absurd hg (scanGaps_ne_nil p _ _)
    | cons g2 gs2 =>
      rw [hg] at ih
      rw [ih]
      simp [joinWith]
  | case3 prev c rest h ih =>
    have hnm : ¬ matchHere prev p (c :: rest) = true := fun hm => h ⟨hm, hp⟩
    rw [replaceFrom_cons_nomatch p e hnm, scanGaps_cons_nomatch h]
    cases hg : scanGaps p (some c) rest with
    | nil => exact absurd hg (scanGaps_ne_nil p _ _)
    | cons g gs =>
      rw [hg] at ih
      rw [ih]
      simp only [List.modifyHead]
      rw [joinWith_cons_head]

theorem scanGaps_two_of_match (p : List Char) (hp : p ≠ []) :
    ∀ (prev0 : Option Char) (s0 : List Char), isMatchFrom prev0 p s0 = true →
      2 ≤ (scanGaps p prev0 s0).length := by
  intro prev0 s0
  induction prev0, s0 using scanGaps.induct p with
  | case1 prev =>
    intro hm
    exfalso
    cases p with
    | nil => exact hp rfl
    | cons q qs => simp [isMatchFrom, matchHere, litPre] at hm
  | case2 prev c rest h ih =>
    intro _
    rw [scanGaps_cons_match h]
    cases hg : scanGaps p p.getLast? ((c :: rest).drop p.length) with
    | nil => exact absurd hg (scanGaps_ne_nil p _ _)
    | cons g2 gs2 => simp
  | case3 prev c rest h ih =>
    intro hm
    have hnm : matchHere prev p (c :: rest) = false := by
      cases hx : matchHere prev p (c :: rest)
      · rfl
      · exact absurd ⟨hx, hp⟩ h
    rw [scanGaps_cons_nomatch h]
    have hm2 : isMatchFrom (some c) p rest = true := by
      simp only [isMatchFrom, hnm, Bool.false_or] at hm
      exact hm
    have hlen := ih hm2
    cases hg : scanGaps p (some c) rest with
    | nil => exact absurd hg (scanGaps_ne_nil p _ _)
    | cons g gs =>
      rw [hg] at hlen
      simpa [List.modifyHead] using hlen

theorem matchHere_left_nonword {p s : List Char} {prev : Option Char}
    (hEdge : wordEdged p = true) (h : matchHere prev p s = true) :
    wordOpt prev = false := by
  cases p with
  | nil => simp [wordEdged, wordOpt] at hEdge
  | cons q qs =>
    simp only [matchHere, Bool.and_eq_true] at h
    refine bdry_left_false h.1.2 ?_
    simp only [wordEdged, Bool.and_eq_true, List.head?_cons] at hEdge
    exact hEdge.1

theorem matchHere_right_nonword {p s : List Char} {prev : Option Char}
    (hEdge : wordEdged p = true) (h : matchHere prev p s = true) :
    wordOpt (s.drop p.length).head? = false := by
  cases p with
  | nil => simp [wordEdged, wordOpt] at hEdge
  | cons q qs =>
    simp only [matchHere, Bool.and_eq_true] at h
    refine bdry_right_false h.2 ?_
    simp only [wordEdged, Bool.and_eq_true] at hEdge
    exact hEdge.2

theorem gapsOk_scanGaps (p : List Char) (hEdge : wordEdged p = true) :
    ∀ (prev0 : Option Char) (s0 : List Char),
      gapsOk p prev0 (scanGaps p prev0 s0) = true := by
  have hp : p ≠ [] := wordEdged_ne_nil hEdge
  intro prev0 s0
  induction prev0, s0 using scanGaps.induct p with
  | case1 prev => simp [scanGaps, gapsOk]
  | case2 prev c rest h ih =>
    rw [scanGaps_cons_match h]
    cases hg : scanGaps p p.getLast? ((c :: rest).drop p.length) with
    | nil => exact absurd hg (scanGaps_ne_nil p _ _)
    | cons g2 gs2 =>
      rw [hg] at ih
      have hl : wordOpt prev = false := matchHere_left_nonword hEdge h.1
      have hr : wordOpt ((c :: rest).drop p.length).head? = false :=
        matchHere_right_nonword hEdge h.1
      have hjoin : joinWith p (g2 :: gs2) = (c :: rest).drop p.length := by
        rw [← hg]
        exact joinWith_scanGaps p hp _ _
      simp only [gapsOk, lastCtx, Bool.and_eq_true]
      refine ⟨⟨?_, ?_⟩, ih⟩
      · simp [hl]
      · rw [hjoin, hr]
        rfl
  | case3 prev c rest h ih =>
    rw [scanGaps_cons_nomatch h]
    cases hg : scanGaps p (some c) rest with
    | nil => exact absurd hg (scanGaps_ne_nil p _ _)
    | cons g gs =>
      rw [hg] at ih
      simp only [List.modifyHead]
      cases gs with
      | nil => simp [gapsOk]
      | cons g2 gs2 =>
        simp only [gapsOk, lastCtx, Bool.and_eq_true] at ih ⊢
        exact ih

theorem expand_of_no_dollar (matched : List Char) :
    ∀ r : List Char, r.contains dollarChar = false → expand matched r = r := by
  intro r
  induction r with
  | nil =>
    intro _
    rfl
  | cons c rest ih =>
    intro h
    have hc : ¬ c = dollarChar := by
      intro hcd
      rw [List.contains_cons] at h
      simp [hcd] at h
    have hrest : rest.contains dollarChar = false := by
      cases hx : rest.contains dollarChar
      · rfl
      · rw [List.contains_cons, hx] at h
        simp at h
    show expandF matched (c :: rest).length (c :: rest) = c :: rest
    simp only [List.length_cons, expandF, hc, if_false]
    exact congrArg (fun l => c :: l) (ih hrest)

theorem find?_eq_head?_filter {α : Type} (q : α → Bool) :
    ∀ l : List α, l.find? q = (l.filter q).head? := by
  intro l
  induction l with
  | nil => rfl
  | cons a as ih =>
    by_cases h : q a = true
    · rw [List.find?_cons_of_pos _ h, List.filter_cons_of_pos h]
      rfl
    · have h2 : q a = false := by
        cases hx : q a
        · rfl
        · exact absurd hx h
      rw [List.find?_cons_of_neg _ (by simp [h2]), List.filter_cons_of_neg (by simp [h2])]
      exact ih

theorem find?_perm_of_subsingleton {α : Type} (q : α → Bool) {l1 l2 : List α}
    (hperm : l1.Perm l2) (huniq : (l1.filter q).length ≤ 1) :
    l1.find? q = l2.find? q := by
  rw [find?_eq_head?_filter, find?_eq_head?_filter]
  have hpf : (l1.filter q).Perm (l2.filter q) := hperm.filter q
  cases hf : l1.filter q with
  | nil =>
    rw [hf] at hpf
    rw [List.perm_nil.mp hpf.symm]
  | cons a as =>
    rw [hf] at hpf huniq
    have has : as = [] := by
      simpa using huniq
    subst has
    rw [List.singleton_perm.mp hpf]

/-- C10: for every well-formed cache state, every rule list and every
command, check_command_mappings returns successfully: each configured
pattern passes through the regex escape before being wrapped in word
boundaries, the escaped text always compiles back to the literal pattern,
and so the pattern-compilation-failure branch is unreachable. -/
theorem checkCommandMappings_never_errors {cache : Cache} (hwf : CacheWF cache)
    (commands : List (String × String)) (command : String) :
    ∃ result cache2,
      checkCommandMappings cache commands command = .ok (result, cache2) := by
  obtain ⟨cache2, _, heq⟩ := checkCommandMappings_eq_matchStep command commands cache hwf
  exact ⟨matchStep commands command, cache2, heq⟩

theorem checkCommandMappings_never_errors_witness :
    ∃ result cache2,
      checkCommandMappings [] [("a+b(", "x"), ("npm", "bun")] "run a+b now"
        = .ok (result, cache2) :=
  checkCommandMappings_never_errors cacheWF_nil [("a+b(", "x"), ("npm", "bun")] "run a+b now"

/-- C9: the pattern cache is idempotent and memoizing.  A request for a
pattern absent from the cache takes the compiling branch; the immediately
repeated request for the same pattern text returns the very same compiled
matcher (hence identical match behaviour) with the cache unchanged and
takes the non-compiling branch, so the pattern is compiled exactly once
across the two requests. -/
theorem getCachedRegex_memoizes {cache : Cache} {pattern : String}
    {m1 : List Char} {cache1 : Cache} {b1 : Bool}
    (hfresh : List.lookup pattern cache = none)
    (h1 : getCachedRegex cache pattern = .ok (m1, cache1, b1)) :
    b1 = true ∧ getCachedRegex cache1 pattern = .ok (m1, cache1, false) := by
  have h2 := h1
  unfold getCachedRegex at h2
  rw [hfresh] at h2
  cases hc : compileRegex pattern with
  | none =>
    rw [hc] at h2
    exact absurd h2 (by simp)
  | some m =>
    rw [hc] at h2
    simp only [Except.ok.injEq, Prod.mk.injEq] at h2
    obtain ⟨hm, hcache, hb⟩ := h2
    constructor
    · exact hb.symm
    · have hhit : List.lookup pattern cache1 = some m1 := by
        rw [← hcache, ← hm]
        simp [List.lookup]
      unfold getCachedRegex
      rw [hhit]

theorem getCachedRegex_memoizes_witness :
    true = true ∧
    getCachedRegex [(fmtPattern "npm", "npm".data)] (fmtPattern "npm")
      = .ok ("npm".data, [(fmtPattern "npm", "npm".data)], false) :=
  @getCachedRegex_memoizes [] (fmtPattern "npm") ("npm".data)
    [(fmtPattern "npm", "npm".data)] true rfl rfl

/-- C8: check returns on the first rule whose matcher finds an occurrence
in the command, with a result depending only on that rule and the command
and never on the later rules; and when no configured rule matches, check
returns the absence value, not an error. -/
theorem checkCommandMappings_first_match {cache : Cache} (hwf : CacheWF cache)
    (command : String) :
    (∀ (p r : String) (rest : List (String × String)),
        reIsMatch p.data command.data = true →
        ∃ cache2, checkCommandMappings cache ((p, r) :: rest) command
          = .ok (some (mkCheckResult p r command), cache2)) ∧
    (∀ commands : List (String × String),
        (∀ pr ∈ commands, ruleMatches command pr = false) →
        ∃ cache2, checkCommandMappings cache commands command
          = .ok (none, cache2)) := by
  constructor
  · intro p r rest hm
    obtain ⟨cache2, _, heq⟩ :=
      checkCommandMappings_eq_matchStep command ((p, r) :: rest) cache hwf
    refine ⟨cache2, ?_⟩
    rw [heq]
    unfold matchStep
    rw [List.find?_cons_of_pos _ (show ruleMatches command (p, r) = true from hm)]
    rfl
  · intro commands hnone
    obtain ⟨cache2, _, heq⟩ :=
      checkCommandMappings_eq_matchStep command commands cache hwf
    refine ⟨cache2, ?_⟩
    rw [heq]
    unfold matchStep
    rw [List.find?_eq_none.mpr (fun x hx => by simp [hnone x hx])]
    rfl

theorem checkCommandMappings_first_match_witness :
    ∃ cache2,
      checkCommandMappings [] [("npm", "bun"), ("npm install", "zzz")] "npm install"
        = .ok (some (mkCheckResult "npm" "bun" "npm install"), cache2) :=
  (checkCommandMappings_first_match cacheWF_nil "npm install").1
    "npm" "bun" [("npm install", "zzz")] (by decide)

/-- C1 counterexample: two iteration orders of one and the same rule set
(the two lists are permutations of each other, hence logically identical
configuration content) give different check outcomes on a command both
patterns match, so the outcome is not a function of the configuration
content alone. -/
theorem check_order_dependent_counterexample :
    List.Perm [("npm", "bun"), ("install", "setup")]
      [("install", "setup"), ("npm", "bun")] ∧
    checkResult [] [("npm", "bun"), ("install", "setup")] "npm install"
      ≠ checkResult [] [("install", "setup"), ("npm", "bun")] "npm install" := by
  constructor
  · exact List.Perm.swap _ _ _
  · decide

/-- C1 (amended): check evaluation is a pure function of the iteration
order and the command, and its outcome is independent of the iteration
order whenever at most one configured pattern matches the command: any two
permutations of the same rule set then give the same outcome.  When two
distinct configured patterns both match, the first in iteration order
wins, and the hash-map storage leaves that order unspecified. -/
theorem checkResult_deterministic_of_unique_match {cache : Cache} (hwf : CacheWF cache)
    {l1 l2 : List (String × String)} (command : String) (hperm : l1.Perm l2)
    (huniq : (l1.filter (ruleMatches command)).length ≤ 1) :
    checkResult cache l1 command = checkResult cache l2 command := by
  rw [checkResult_eq_matchStep hwf, checkResult_eq_matchStep hwf]
  unfold matchStep
  rw [find?_perm_of_subsingleton _ hperm huniq]

theorem checkResult_deterministic_of_unique_match_witness :
    ([("npm", "bun"), ("yarn", "pnpm")].filter (ruleMatches "npm install")).length ≤ 1 ∧
    checkResult [] [("npm", "bun"), ("yarn", "pnpm")] "npm install"
      = checkResult [] [("yarn", "pnpm"), ("npm", "bun")] "npm install" :=
  ⟨by decide,
   checkResult_deterministic_of_unique_match cacheWF_nil "npm install"
     (List.Perm.swap _ _ _) (by decide)⟩

/-- C2 counterexample: the claim fails as stated.  First, for a pattern
that does not begin and end with word characters the word-boundary
anchors follow raw boundary semantics, not the claimed bounded-occurrence
reading: the configured pattern consisting of hyphen then v occurs in the
command consisting of hyphen then v bounded by both string edges, yet
check returns no match.  Second, a dollar sign in the replacement text is
treated as a capture-group reference, so the inserted text is not the
rule replacement verbatim.  Third, with several rules the returned match
is the first matching rule, not the rule of every bounded pattern: the
second rule matches the command but its occurrences are not rewritten. -/
theorem check_bounded_occurrence_counterexample :
    ("-v").data = [] ++ (("-v").data ++ []) ∧
    wordOpt (lastCtx none []) = false ∧
    wordOpt (List.head? ([] : List Char)) = false ∧
    checkResult [] [("-v", "x")] "-v" = some none ∧
    (checkResult [] [("npm", "b$1n")] "npm").map (Option.map Prod.snd)
      = some (some "b") ∧
    (checkResult [] [("aa", "x"), ("bb", "y")] "aa bb").map (Option.map Prod.snd)
      = some (some "x bb") := by
  refine ⟨by decide, by decide, by decide, by decide, by decide, by decide⟩

/-- C2 (amended): for every pattern P beginning and ending with word
characters, every replacement text R free of dollar signs, and every
command containing an occurrence of P bounded on both sides by a non-word
character or a string edge, check on a configuration headed by the rule
for P returns that rule: the suggestion names P, R and the rewritten
command, and the rewritten command decomposes the original command at the
matched occurrences of P — the command is the gaps joined with P, the
rewrite is the same gaps joined with R (so all surrounding characters,
repeated whitespace included, are preserved verbatim), at least one
occurrence is rewritten, and every junction is bounded by non-word
context on both sides.  In particular npm matches inside my-npm-tool. -/
theorem check_rewrites_bounded_occurrences {cache : Cache} (hwf : CacheWF cache)
    (P R command : String) (rest : List (String × String))
    (hEdge : wordEdged P.data = true)
    (hnd : R.data.contains dollarChar = false)
    (hocc : ∃ u v : List Char, command.data = u ++ (P.data ++ v) ∧
      wordOpt (lastCtx none u) = false ∧ wordOpt v.head? = false) :
    ∃ (cache2 : Cache) (gaps : List (List Char)),
      checkCommandMappings cache ((P, R) :: rest) command
        = .ok (some (mkSuggestion P R ⟨joinWith R.data gaps⟩,
                     ⟨joinWith R.data gaps⟩), cache2) ∧
      2 ≤ gaps.length ∧
      command.data = joinWith P.data gaps ∧
      gapsOk P.data none gaps = true := by
  have hp : P.data ≠ [] := wordEdged_ne_nil hEdge
  obtain ⟨u, v, hdecomp, hul, hvr⟩ := hocc
  have hmatch : reIsMatch P.data command.data = true := by
    rw [reIsMatch, hdecomp]
    exact isMatchFrom_occurrence hEdge hvr u none hul
  obtain ⟨cache2, b, hget, hwf2⟩ :=
    getCachedRegex_wf hwf (fmtPattern P) P.data (compileRegex_fmt P)
  refine ⟨cache2, scanGaps P.data none command.data, ?_, ?_, ?_, ?_⟩
  · have hrepl : reReplaceAll P.data R.data command.data
        = joinWith R.data (scanGaps P.data none command.data) := by
      rw [reReplaceAll, expand_of_no_dollar P.data R.data hnd]
      exact replaceFrom_eq_joinWith P.data R.data hp none command.data
    simp only [checkCommandMappings, hget, hmatch, if_true]
    rw [hrepl]
  · exact scanGaps_two_of_match P.data hp none command.data hmatch
  · exact (joinWith_scanGaps P.data hp none command.data).symm
  · exact gapsOk_scanGaps P.data hEdge none command.data

theorem check_rewrites_bounded_occurrences_witness :
    ∃ (cache2 : Cache) (gaps : List (List Char)),
      checkCommandMappings [] [("npm", "bun")] "my-npm-tool"
        = .ok (some (mkSuggestion "npm" "bun" ⟨joinWith ("bun").data gaps⟩,
                     ⟨joinWith ("bun").data gaps⟩), cache2) ∧
      2 ≤ gaps.length ∧
      ("my-npm-tool").data = joinWith ("npm").data gaps ∧
      gapsOk ("npm").data none gaps = true :=
  check_rewrites_bounded_occurrences cacheWF_nil "npm" "bun" "my-npm-tool" []
    (by decide) (by decide)
    ⟨("my-").data, ("-tool").data, by decide, by decide, by decide⟩

theorem cur_ne_leg : currentConfigName ≠ legacyConfigName := by decide

theorem cur_ne_back : currentConfigName ≠ backupConfigName := by decide

theorem leg_ne_back : legacyConfigName ≠ backupConfigName := by decide

/-- C6: on a PreToolUse event whose tool is Bash and whose command is
present, when check finds a matching rule the handler emits exactly one
serialized decision document and exits the invocation immediately: with
replace mode off the document has decision block, the suggestion as
reason, and no replacement command field; with replace mode on it has
decision replace, a reason, and the replacement command.  When no rule
matches, the handler completes with no output. -/
theorem handlePreToolUse_decision (config : Config) (input : HookInput)
    (command : String) {cache cache2 : Cache}
    (htool : input.toolName = some "Bash")
    (hti : input.toolInput = some ⟨some command⟩) :
    (∀ suggestion replacementCmd : String,
      checkCommandMappings cache config.commands command
          = .ok (some (suggestion, replacementCmd), cache2) →
      handlePreToolUse cache config input false
          = .ok (.exited (serializeHookOutput ⟨"block", suggestion, none⟩), cache2) ∧
      handlePreToolUse cache config input true
          = .ok (.exited (serializeHookOutput
              ⟨"replace",
               "Command mapped: using " ++ quoteChar ++ replacementCmd
                 ++ quoteChar ++ " instead",
               some replacementCmd⟩), cache2)) ∧
    (checkCommandMappings cache config.commands command = .ok (none, cache2) →
      ∀ replaceMode : Bool,
        handlePreToolUse cache config input replaceMode = .ok (.completed, cache2)) := by
  constructor
  · intro suggestion replacementCmd hcheck
    constructor
    · simp [handlePreToolUse, htool, hti, hcheck]
    · simp [handlePreToolUse, htool, hti, hcheck]
  · intro hcheck replaceMode
    simp [handlePreToolUse, htool, hti, hcheck]

theorem handlePreToolUse_decision_witness :
    ∃ (suggestion replacementCmd : String) (cache2 : Cache),
      checkCommandMappings [] [("npm", "bun")] "npm install"
        = .ok (some (suggestion, replacementCmd), cache2) ∧
      handlePreToolUse [] ⟨[("npm", "bun")], []⟩
          ⟨"PreToolUse", some "Bash", some ⟨some "npm install"⟩, none, none⟩ false
        = .ok (.exited (serializeHookOutput ⟨"block", suggestion, none⟩), cache2) ∧
      handlePreToolUse [] ⟨[("npm", "bun")], []⟩
          ⟨"PreToolUse", some "Bash", some ⟨some "npm install"⟩, none, none⟩ true
        = .ok (.exited (serializeHookOutput
            ⟨"replace",
             "Command mapped: using " ++ quoteChar ++ replacementCmd
               ++ quoteChar ++ " instead",
             some replacementCmd⟩), cache2) := by
  refine ⟨(mkCheckResult "npm" "bun" "npm install").1,
          (mkCheckResult "npm" "bun" "npm install").2,
          [(fmtPattern "npm", ("npm").data)], ?_⟩
  have hcheck : checkCommandMappings [] [("npm", "bun")] "npm install"
      = .ok (some ((mkCheckResult "npm" "bun" "npm install").1,
                   (mkCheckResult "npm" "bun" "npm install").2),
             [(fmtPattern "npm", ("npm").data)]) := rfl
  obtain ⟨hb, hr⟩ :=
    (handlePreToolUse_decision ⟨[("npm", "bun")], []⟩
        ⟨"PreToolUse", some "Bash", some ⟨some "npm install"⟩, none, none⟩
        "npm install" rfl rfl).1
      (mkCheckResult "npm" "bun" "npm install").1
      (mkCheckResult "npm" "bun" "npm install").2 hcheck
  exact ⟨hcheck, hb, hr⟩

/-- C3: migrate on full success returns the current path and leaves the
filesystem with the legacy file gone, the current file holding the
original legacy content, the backup file (legacy name plus the fixed
suffix) holding the original legacy content, and a load of the current
path succeeding. -/
theorem migrateConfig_full_success (parseToml : String → Option Config)
    (fs : FS) (content : String) (config : Config)
    (hleg : fs legacyConfigName = some content)
    (hcur : fs currentConfigName = none)
    (hparse : parseToml content = some config) :
    (migrateConfig parseToml fs).1 = .ok currentConfigName ∧
    (migrateConfig parseToml fs).2 legacyConfigName = none ∧
    (migrateConfig parseToml fs).2 currentConfigName = some content ∧
    (migrateConfig parseToml fs).2 backupConfigName = some content ∧
    loadConfigFromPath parseToml (migrateConfig parseToml fs).2 currentConfigName
      = .ok config := by
  have hload : loadConfigFromPath parseToml
      (fsWrite (fsWrite fs backupConfigName content) currentConfigName content)
      currentConfigName = .ok config := by
    simp [loadConfigFromPath, fsWrite, hparse]
  have hmig : migrateConfig parseToml fs
      = (.ok currentConfigName,
         fsRemove (fsWrite (fsWrite fs backupConfigName content) currentConfigName content)
           legacyConfigName) := by
    simp [migrateConfig, hleg, hcur, hload]
  rw [hmig]
  refine ⟨rfl, ?_, ?_, ?_, ?_⟩
  · simp [fsRemove]
  · simp [fsRemove, fsWrite, cur_ne_leg]
  · simp [fsRemove, fsWrite, Ne.symm leg_ne_back, Ne.symm cur_ne_back]
  · simp [loadConfigFromPath, fsRemove, fsWrite, cur_ne_leg, hparse]

theorem migrateConfig_full_success_witness :
    (migrateConfig demoParse demoFsLegacy).1 = .ok currentConfigName ∧
    (migrateConfig demoParse demoFsLegacy).2 legacyConfigName = none ∧
    (migrateConfig demoParse demoFsLegacy).2 currentConfigName = some "[commands]" ∧
    (migrateConfig demoParse demoFsLegacy).2 backupConfigName = some "[commands]" ∧
    loadConfigFromPath demoParse (migrateConfig demoParse demoFsLegacy).2 currentConfigName
      = .ok ⟨[], []⟩ :=
  migrateConfig_full_success demoParse demoFsLegacy "[commands]" ⟨[], []⟩
    (by decide) (by decide) (by decide)

/-- C4: when validation of the freshly copied current file fails, migrate
fails with MigrationFailed, the just-created current file is deleted, and
the legacy and backup files are left intact with the original content;
moreover, on every erroring run of migrate whatsoever the legacy file is
left exactly as it was, so the legacy file is never removed unless
validation succeeds. -/
theorem migrateConfig_validation_rollback (parseToml : String → Option Config)
    (fs : FS) (content : String)
    (hleg : fs legacyConfigName = some content)
    (hcur : fs currentConfigName = none)
    (hparse : parseToml content = none) :
    (∃ msg, (migrateConfig parseToml fs).1 = .error (.migrationFailed msg)) ∧
    (migrateConfig parseToml fs).2 currentConfigName = none ∧
    (migrateConfig parseToml fs).2 legacyConfigName = some content ∧
    (migrateConfig parseToml fs).2 backupConfigName = some content ∧
    (∀ (gs : FS) (e : ConfigError), (migrateConfig parseToml gs).1 = .error e →
      (migrateConfig parseToml gs).2 legacyConfigName = gs legacyConfigName) := by
  have hload : loadConfigFromPath parseToml
      (fsWrite (fsWrite fs backupConfigName content) currentConfigName content)
      currentConfigName
      = .error (.parseFailed ("Failed to parse config file: " ++ currentConfigName)) := by
    simp [loadConfigFromPath, fsWrite, hparse]
  have hmig : migrateConfig parseToml fs
      = (.error (.migrationFailed ("New configuration validation failed: "
            ++ configErrorMsg (.parseFailed ("Failed to parse config file: "
                ++ currentConfigName)))),
         fsRemove (fsWrite (fsWrite fs backupConfigName content) currentConfigName content)
           currentConfigName) := by
    simp [migrateConfig, hleg, hcur, hload]
  refine ⟨⟨_, by rw [hmig]⟩, ?_, ?_, ?_, ?_⟩
  · rw [hmig]
    simp [fsRemove]
  · rw [hmig]
    simp [fsRemove, fsWrite, Ne.symm cur_ne_leg, leg_ne_back, hleg]
  · rw [hmig]
    simp [fsRemove, fsWrite, Ne.symm cur_ne_back, hleg]
  · intro gs e herr
    cases hg : gs legacyConfigName with
    | none => simp [migrateConfig, hg]
    | some ct =>
      cases hgc : (gs currentConfigName).isSome with
      | true => simp [migrateConfig, hg, hgc]
      | false =>
        cases hl : loadConfigFromPath parseToml
            (fsWrite (fsWrite gs backupConfigName ct) currentConfigName ct)
            currentConfigName with
        | error e2 =>
          simp [migrateConfig, hg, hgc, hl, fsRemove, fsWrite,
            Ne.symm cur_ne_leg, leg_ne_back]
        | ok cfg =>
          exfalso
          simp [migrateConfig, hg, hgc, hl] at herr

theorem migrateConfig_validation_rollback_witness :
    (∃ msg, (migrateConfig demoParse demoFsLegacyBad).1 = .error (.migrationFailed msg)) ∧
    (migrateConfig demoParse demoFsLegacyBad).2 currentConfigName = none ∧
    (migrateConfig demoParse demoFsLegacyBad).2 legacyConfigName = some "not toml" ∧
    (migrateConfig demoParse demoFsLegacyBad).2 backupConfigName = some "not toml" ∧
    (∀ (gs : FS) (e : ConfigError), (migrateConfig demoParse gs).1 = .error e →
      (migrateConfig demoParse gs).2 legacyConfigName = gs legacyConfigName) :=
  migrateConfig_validation_rollback demoParse demoFsLegacyBad "not toml"
    (by decide) (by decide) (by decide)

/-- C5: migrate fails with MigrationFailed and leaves the filesystem
entirely untouched when its precondition does not hold: when the legacy
file is absent, and likewise when both the legacy and the current file
exist; in both cases no file is created, removed or modified. -/
theorem migrateConfig_precondition_failure (parseToml : String → Option Config)
    (fs : FS) :
    (fs legacyConfigName = none →
      (∃ msg, (migrateConfig parseToml fs).1 = .error (.migrationFailed msg)) ∧
      (migrateConfig parseToml fs).2 = fs) ∧
    (∀ lc cc : String, fs legacyConfigName = some lc → fs currentConfigName = some cc →
      (∃ msg, (migrateConfig parseToml fs).1 = .error (.migrationFailed msg)) ∧
      (migrateConfig parseToml fs).2 = fs) := by
  constructor
  · intro hleg
    constructor
    · exact ⟨"Old configuration file does not exist", by simp [migrateConfig, hleg]⟩
    · simp [migrateConfig, hleg]
  · intro lc cc hleg hcur
    constructor
    · exact ⟨"New configuration file already exists", by simp [migrateConfig, hleg, hcur]⟩
    · simp [migrateConfig, hleg, hcur]

theorem migrateConfig_precondition_failure_witness :
    ((∃ msg, (migrateConfig demoParse demoFsEmpty).1 = .error (.migrationFailed msg)) ∧
      (migrateConfig demoParse demoFsEmpty).2 = demoFsEmpty) ∧
    ((∃ msg, (migrateConfig demoParse demoFsBoth).1 = .error (.migrationFailed msg)) ∧
      (migrateConfig demoParse demoFsBoth).2 = demoFsBoth) :=
  ⟨(migrateConfig_precondition_failure demoParse demoFsEmpty).1 (by decide),
   (migrateConfig_precondition_failure demoParse demoFsBoth).2 "[commands]" "other"
     (by decide) (by decide)⟩

/-- C7: when neither configuration file name exists, load_config_auto
succeeds with the empty configuration (both mappings empty) and emits the
one diagnostic, surfacing no failure to the caller; while a load error on
a discovered file, such as a parse failure of the current file,
propagates. -/
theorem loadConfigAuto_notfound_recovery (parseToml : String → Option Config)
    (fs : FS) :
    (fs currentConfigName = none → fs legacyConfigName = none →
      loadConfigAuto parseToml fs = (.ok ⟨[], []⟩, [noConfigDiagnostic])) ∧
    (∀ content, fs currentConfigName = some content → parseToml content = none →
      ∃ msg, loadConfigAuto parseToml fs = (.error (.parseFailed msg), [])) := by
  constructor
  · intro hcur hleg
    have hfind : List.find? (fun n => (fs n).isSome) configFileNames = none := by
      simp [configFileNames, List.find?, hcur, hleg]
    simp [loadConfigAuto, findConfigFile, hfind]
  · intro content hcur hparse
    have hfind : List.find? (fun n => (fs n).isSome) configFileNames
        = some currentConfigName := by
      simp [configFileNames, List.find?, hcur]
    refine ⟨"Failed to parse config file: " ++ currentConfigName, ?_⟩
    simp [loadConfigAuto, findConfigFile, hfind, loadConfigFromPath, hcur, hparse]

theorem loadConfigAuto_notfound_recovery_witness :
    loadConfigAuto demoParse demoFsEmpty = (.ok ⟨[], []⟩, [noConfigDiagnostic]) ∧
    (∃ msg, loadConfigAuto demoParse demoFsCurrentBad = (.error (.parseFailed msg), [])) :=
  ⟨(loadConfigAuto_notfound_recovery demoParse demoFsEmpty).1 (by decide) (by decide),
   (loadConfigAuto_notfound_recovery demoParse demoFsCurrentBad).2 "not toml"
     (by decide) (by decide)⟩
